import Mathlib

/-! Shallow embedding of the `toy/` three-server shuffle-DP protocol
(`toy/src/finite_field.rs`, `secret_sharing.rs`, `server.rs`,
`offline_phase.rs`, `online_phase.rs`, `lib.rs`).

Machine integers are modelled as `Nat`; `u64` wrap-around (release-mode
semantics) is written explicitly as `% u64size` at the places where the Rust
code can overflow.  Fallible Rust functions returning `Result` are modelled as
`Except`.  Randomness (`thread_rng` draws, the Fisher-Yates permutation, the
Laplace noise values) is passed in as explicit parameters.
-/

namespace Toy

/-- Decidable equality for `Except`, used to evaluate the embedded fallible
operations on concrete inputs. -/
instance {ε α : Type} [DecidableEq ε] [DecidableEq α] : DecidableEq (Except ε α) := by
  intro x y
  cases x <;> cases y
  case error.error a b =>
    exact if h : a = b then .isTrue (by rw [h]) else .isFalse (by simp [h])
  case ok.ok a b =>
    exact if h : a = b then .isTrue (by rw [h]) else .isFalse (by simp [h])
  case error.ok a b => exact .isFalse (by simp)
  case ok.error a b => exact .isFalse (by simp)

/-- The `2^64`: the size of the `u64` value space. -/
def u64size : Nat := 2 ^ 64

/-- The `FieldError` from `finite_field.rs`. -/
inductive FieldError where
  | ModulusMismatch
  | DivisionByZero
  | NoInverse
  | NonPrimeModulus
  | DimensionMismatch
  | EmptyInput
deriving DecidableEq, Repr

/-- The `FieldElement` from `finite_field.rs`: a value together with its modulus. -/
structure FieldElement where
  value : Nat
  modulus : Nat
deriving DecidableEq, Repr

namespace FieldElement

/-- The `FieldElement::new`: stores `value % modulus`.  (For `modulus = 0` the Rust
`%` would panic; `Nat.mod` by zero is the identity, a divergence only outside
the prime moduli the protocol uses.) -/
def new (value modulus : Nat) : FieldElement :=
  ⟨value % modulus, modulus⟩

/-- The `FieldElement::zero`: the struct literal `{ value: 0, modulus }`. -/
def zero (modulus : Nat) : FieldElement :=
  ⟨0, modulus⟩

/-- The `FieldElement::one`: the struct literal `{ value: 1, modulus }` (no
reduction). -/
def one (modulus : Nat) : FieldElement :=
  ⟨1, modulus⟩

/-- The `FieldElement::is_zero`. -/
def is_zero (a : FieldElement) : Bool :=
  a.value == 0

/-- The `FieldElement::add`.  The u64 sum `self.value + other.value` can wrap when
the modulus exceeds `2^63`, hence the explicit `% u64size`. -/
def add (a b : FieldElement) : Except FieldError FieldElement :=
  if a.modulus ≠ b.modulus then .error .ModulusMismatch
  else
    let sum := (a.value + b.value) % u64size
    let result := if sum ≥ a.modulus then sum - a.modulus else sum
    .ok (new result a.modulus)

/-- The `FieldElement::sub`.  The branch `self.modulus - (other.value - self.value)`
is u64 subtraction, written with the explicit `+ u64size … % u64size` wrap. -/
def sub (a b : FieldElement) : Except FieldError FieldElement :=
  if a.modulus ≠ b.modulus then .error .ModulusMismatch
  else
    let diff :=
      if a.value ≥ b.value then a.value - b.value
      else (a.modulus + u64size - (b.value - a.value)) % u64size
    .ok (new diff a.modulus)

/-- The `FieldElement::mul`: the product is widened to 128 bits (no overflow for
u64 operands) and reduced. -/
def mul (a b : FieldElement) : Except FieldError FieldElement :=
  if a.modulus ≠ b.modulus then .error .ModulusMismatch
  else
    let result := (a.value * b.value) % a.modulus
    .ok (new result a.modulus)

/-- The extended-Euclid loop of `FieldElement::inverse`, with an explicit fuel
argument so that the definition is structurally recursive (the Rust `while
new_r != 0` loop strictly decreases `new_r`, so `new_r + 1` fuel is always
enough).  The Rust loop runs on `i64`; for moduli below `2^63` (the bound §4.1
of the spec imposes so that products fit) every quantity the loop manipulates
is bounded by the modulus in absolute value, so `Int`/`Nat` arithmetic agrees
with `i64` arithmetic. -/
def egcdFuel : Nat → Int → Int → Nat → Nat → Int × Nat
  | 0, t, _, r, _ => (t, r)
  | fuel + 1, t, newT, r, newR =>
    if newR = 0 then (t, r)
    else egcdFuel fuel newT (t - ((r / newR : Nat) : Int) * newT) newR (r % newR)

/-- The `t as u64` cast at the end of `inverse`: two's-complement wrap of an
`i64` into `u64`, i.e. the representative of `t` modulo `2^64`. -/
def u64ofInt (t : Int) : Nat :=
  (t % (u64size : Int)).toNat

/-- The `FieldElement::inverse`: extended Euclidean algorithm started from
`(t, new_t, r, new_r) = (0, 1, modulus, value)`. -/
def inverse (a : FieldElement) : Except FieldError FieldElement :=
  if a.is_zero then .error .DivisionByZero
  else
    let res := egcdFuel (a.value + 1) 0 1 a.modulus a.value
    if res.2 > 1 then .error .NoInverse
    else
      let t := if res.1 < 0 then res.1 + (a.modulus : Int) else res.1
      .ok (new (u64ofInt t) a.modulus)

/-- The `FieldElement::div`: multiplication by the inverse. -/
def div (a b : FieldElement) : Except FieldError FieldElement :=
  if a.modulus ≠ b.modulus then .error .ModulusMismatch
  else if b.is_zero then .error .DivisionByZero
  else do
    let inv ← b.inverse
    a.mul inv

/-- The square-and-multiply loop of `FieldElement::pow`, with fuel (the Rust
loop halves `exponent` each iteration, so `exponent` iterations always
suffice). -/
def powFuel : Nat → FieldElement → FieldElement → Nat → Except FieldError FieldElement
  | 0, _, result, _ => .ok result
  | fuel + 1, base, result, e =>
    if e = 0 then .ok result
    else do
      let result ← if e % 2 = 1 then result.mul base else .ok result
      let base ← base.mul base
      powFuel fuel base result (e / 2)

/-- The `FieldElement::pow`. -/
def pow (a : FieldElement) (e : Nat) : Except FieldError FieldElement :=
  if e = 0 then .ok (one a.modulus)
  else powFuel e a (one a.modulus) e

end FieldElement

/-- The `FiniteField::find_generator`. -/
def find_generator (modulus : Nat) : Nat :=
  if modulus > 5 then 5 else 2

/-- The `FiniteField` from `finite_field.rs`.  (`FiniteField::new` additionally
runs a trial-division primality check; the theorems below take primality of
the modulus as a hypothesis instead.) -/
structure FiniteField where
  modulus : Nat
  generator : Nat
deriving DecidableEq, Repr

namespace FiniteField

/-- The `FiniteField::zero`. -/
def zero (f : FiniteField) : FieldElement :=
  FieldElement.zero f.modulus

/-- The `FiniteField::one`. -/
def one (f : FiniteField) : FieldElement :=
  FieldElement.one f.modulus

/-- The `FiniteField::element`. -/
def element (f : FiniteField) (value : Nat) : FieldElement :=
  FieldElement.new value f.modulus

end FiniteField

/-- The `SecretShare` from `secret_sharing.rs`. -/
structure SecretShare where
  id : Nat
  value : FieldElement
  point : FieldElement
deriving DecidableEq, Repr

/-- The `ShamirSecretSharing` from `secret_sharing.rs`.  (`ShamirSecretSharing::new`
validates `2 ≤ threshold ≤ num_shares` and primality of the modulus; the
protocol always constructs `(threshold, num_shares) = (2, 3)`.) -/
structure ShamirSecretSharing where
  threshold : Nat
  num_shares : Nat
  field : FiniteField
deriving DecidableEq, Repr

namespace ShamirSecretSharing

/-- The `evaluate_polynomial`: Horner-free evaluation, accumulating `power`. -/
def evaluate_polynomial (coefficients : List FieldElement)
    (point : FieldElement) : Except FieldError FieldElement :=
  match coefficients with
  | [] => .error .EmptyInput
  | c0 :: rest => do
    let out ← rest.foldlM
      (fun (acc : FieldElement × FieldElement) coefficient => do
        let power ← acc.2.mul point
        let term ← coefficient.mul power
        let result ← acc.1.add term
        pure (result, power))
      (c0, FieldElement.one point.modulus)
    pure out.1

/-- The `share_secret`.  The `threshold - 1` random coefficients drawn from
`field.random_element()` are passed in explicitly as `rand`; shares are the
polynomial evaluated at the points `1, …, num_shares`. -/
def share_secret (ss : ShamirSecretSharing) (rand : List FieldElement)
    (secret : FieldElement) : Except FieldError (List SecretShare) :=
  if secret.modulus ≠ ss.field.modulus then .error .ModulusMismatch
  else
    let coefficients := secret :: rand
    (List.range ss.num_shares).mapM (fun i => do
      let point := ss.field.element (i + 1)
      let value ← evaluate_polynomial coefficients point
      pure (SecretShare.mk i value point))

/-- The `(i as u64 + 1) - (j as u64 + 1)` subtraction in `reconstruct_secret`
is u64 subtraction, which wraps modulo `2^64` when `i < j` (release-mode
semantics; a debug build would panic on the overflow). -/
def sub64 (a b : Nat) : Nat :=
  (a + u64size - b) % u64size

/-- The `reconstruct_secret`.  Note the source computes the Lagrange factors from
the *positions* of the shares in the slice (numerator factor
`n - (j + 1)`, denominator factor `(i + 1) - (j + 1)` where `n` is the number
of shares), not from the shares' stored evaluation points. -/
def reconstruct_secret (ss : ShamirSecretSharing)
    (shares : List SecretShare) : Except FieldError FieldElement :=
  if shares.length < ss.threshold then .error .DimensionMismatch
  else
    let n := shares.length
    shares.enum.foldlM
      (fun (secret : FieldElement) (ishare : Nat × SecretShare) => do
        let i := ishare.1
        let nd ← shares.enum.foldlM
          (fun (nd : FieldElement × FieldElement) (jshare : Nat × SecretShare) =>
            if i ≠ jshare.1 then do
              let n_minus_j := ss.field.element (n - (jshare.1 + 1))
              let numerator ← nd.1.mul n_minus_j
              let i_minus_j := ss.field.element (sub64 (i + 1) (jshare.1 + 1))
              let denominator ← nd.2.mul i_minus_j
              pure (numerator, denominator)
            else pure nd)
          (ss.field.one, ss.field.one)
        let lagrange_coeff ← nd.1.div nd.2
        let contribution ← ishare.2.value.mul lagrange_coeff
        secret.add contribution)
      ss.field.zero

/-- The `share_vector`: element-wise `share_secret`; the per-secret random
coefficient lists are supplied in `rands`, one list per secret. -/
def share_vector (ss : ShamirSecretSharing) (rands : List (List FieldElement))
    (secrets : List FieldElement) : Except FieldError (List (List SecretShare)) :=
  (secrets.zip rands).mapM (fun sr => ss.share_secret sr.2 sr.1)

/-- The `share_matrix`: row-wise `share_vector`. -/
def share_matrix (ss : ShamirSecretSharing)
    (rands : List (List (List FieldElement)))
    (matrix : List (List FieldElement)) :
    Except FieldError (List (List (List SecretShare))) :=
  (matrix.zip rands).mapM (fun mr => ss.share_vector mr.2 mr.1)

/-- The `add_shares`: element-wise addition.  The source checks the lengths and
the share ids, but not the evaluation points; the result takes the left
operand's id and point. -/
def add_shares (ss : ShamirSecretSharing) (a b : List SecretShare) :
    Except FieldError (List SecretShare) :=
  if a.length ≠ b.length then .error .DimensionMismatch
  else
    (a.zip b).mapM (fun (pair : SecretShare × SecretShare) => do
      if pair.1.id ≠ pair.2.id then .error FieldError.DimensionMismatch
      else do
        let sum ← pair.1.value.add pair.2.value
        pure (SecretShare.mk pair.1.id sum pair.1.point))

end ShamirSecretSharing

/-- The `ProtocolError` from `protocol.rs` (string payloads elided where unused). -/
inductive ProtocolError where
  | FieldOperationFailed
  | DimensionMismatch
  | EmptyInput
  | ServerNotFound
  | SharingFailed
  | InvalidConfiguration (message : String)
  | NetworkError (message : String)
  | InternalError (message : String)
deriving DecidableEq, Repr

/-- The `ToyConfig` from `lib.rs`.  The `epsilon`, `delta` and `noise_scale`
fields are `f64`s used only to scale the Laplace draw in
`generate_laplace_noise`; the noise values themselves are passed to the
offline phase explicitly, so those fields are not modelled. -/
structure ToyConfig where
  field_modulus : Nat
  num_users : Nat
deriving DecidableEq, Repr

/-- The `UserData` from `lib.rs`. -/
structure UserData where
  user_id : Nat
  data : List FieldElement
  seed : Nat
deriving DecidableEq, Repr

/-- The `ServerRole` from `server.rs`. -/
inductive ServerRole where
  | Auxiliary
  | Computational
deriving DecidableEq, Repr

/-- The `ServerState` from `server.rs`. -/
inductive ServerState where
  | Offline
  | Online
  | Participating
  | Completed
  | Failed (message : String)
deriving DecidableEq, Repr

/-- The `Server` from `server.rs`. -/
structure Server where
  id : Nat
  role : ServerRole
  state : ServerState
  config : ToyConfig
  permutation_shares : List (List (List SecretShare))
  mask_shares : List (List (List SecretShare))
  noise_shares : List (List SecretShare)
  final_result : Option (List (List FieldElement))
deriving DecidableEq, Repr

namespace Server

/-- The `Server::new`. -/
def new (id : Nat) (role : ServerRole) (config : ToyConfig) : Server :=
  ⟨id, role, ServerState.Offline, config, [], [], [], none⟩

/-- The `Server::is_auxiliary`. -/
def is_auxiliary (s : Server) : Bool :=
  s.role == ServerRole.Auxiliary

/-- The `Server::is_computational`. -/
def is_computational (s : Server) : Bool :=
  s.role == ServerRole.Computational

/-- The `Server::store_permutation_shares`: writes only on computational servers. -/
def store_permutation_shares (s : Server)
    (shares : List (List (List SecretShare))) : Server :=
  if s.is_computational then { s with permutation_shares := shares } else s

/-- The `Server::store_mask_shares`: writes only on computational servers. -/
def store_mask_shares (s : Server)
    (shares : List (List (List SecretShare))) : Server :=
  if s.is_computational then { s with mask_shares := shares } else s

/-- The `Server::store_noise_shares`: writes only on computational servers. -/
def store_noise_shares (s : Server) (shares : List (List SecretShare)) : Server :=
  if s.is_computational then { s with noise_shares := shares } else s

/-- The `Server::receive_permutation_shares`: same role gate as the store. -/
def receive_permutation_shares (s : Server)
    (shares : List (List (List SecretShare))) : Server :=
  if s.is_computational then { s with permutation_shares := shares } else s

/-- The `Server::receive_mask_shares`: same role gate as the store. -/
def receive_mask_shares (s : Server)
    (shares : List (List (List SecretShare))) : Server :=
  if s.is_computational then { s with mask_shares := shares } else s

/-- The `Server::receive_noise_shares`: same role gate as the store. -/
def receive_noise_shares (s : Server) (shares : List (List SecretShare)) : Server :=
  if s.is_computational then { s with noise_shares := shares } else s

/-- The `Server::set_final_result`: writes only on computational servers. -/
def set_final_result (s : Server) (result : List (List FieldElement)) : Server :=
  if s.is_computational then { s with final_result := some result } else s

/-- The `Server::get_final_result`: `self.final_result.clone().unwrap_or_default()`. -/
def get_final_result (s : Server) : List (List FieldElement) :=
  s.final_result.getD []

end Server

/-- The `HashMap<usize, Server>` built by `ToyProtocol::new`: it always holds
exactly the three servers with ids 0 (auxiliary), 1 and 2 (computational). -/
structure Servers where
  aux : Server
  comp1 : Server
  comp2 : Server
deriving DecidableEq, Repr

namespace Servers

/-- The server map set up in `ToyProtocol::new`. -/
def new (config : ToyConfig) : Servers :=
  ⟨Server.new 0 ServerRole.Auxiliary config,
   Server.new 1 ServerRole.Computational config,
   Server.new 2 ServerRole.Computational config⟩

end Servers

/-- The `.map_err(|_| ProtocolError::FieldOperationFailed)`. -/
def field_op {α : Type} : Except FieldError α → Except ProtocolError α
  | .ok a => .ok a
  | .error _ => .error ProtocolError.FieldOperationFailed

/-- The `.map_err(|_| ProtocolError::SharingFailed)`. -/
def sharing_op {α : Type} : Except FieldError α → Except ProtocolError α
  | .ok a => .ok a
  | .error _ => .error ProtocolError.SharingFailed

/-- The `matrix[i][k] = v` on a list-of-lists matrix. -/
def setMat (m : List (List FieldElement)) (i k : Nat) (v : FieldElement) :
    List (List FieldElement) :=
  m.set i ((m.getD i []).set k v)

namespace OfflinePhase

/-- The `generate_permutation_matrix` from `offline_phase.rs`: starting from the
`num_users × num_users` zero matrix, set `matrix[i][pos] = one` for each
`(i, pos)` in the enumerated permutation.  The permutation produced by the
Fisher-Yates `shuffle_permutation` is passed in explicitly as `perm` (a
shuffle of `(0..n).collect()`). -/
def generate_permutation_matrix (cfg : ToyConfig) (f : FiniteField)
    (perm : List Nat) : List (List FieldElement) :=
  let n := cfg.num_users
  perm.enum.foldl (fun matrix ipos => setMat matrix ipos.1 ipos.2 f.one)
    (List.replicate n (List.replicate n f.zero))

/-- The `share_permutation_matrix`: row-wise `share_vector` with errors mapped to
`SharingFailed`. -/
def share_permutation_matrix (ss : ShamirSecretSharing)
    (rands : List (List (List FieldElement))) (matrix : List (List FieldElement)) :
    Except ProtocolError (List (List (List SecretShare))) :=
  (matrix.zip rands).mapM (fun mr => sharing_op (ss.share_vector mr.2 mr.1))

/-- The `share_user_masks`: same shape as `share_permutation_matrix`. -/
def share_user_masks (ss : ShamirSecretSharing)
    (rands : List (List (List FieldElement))) (masks : List (List FieldElement)) :
    Except ProtocolError (List (List (List SecretShare))) :=
  (masks.zip rands).mapM (fun mr => sharing_op (ss.share_vector mr.2 mr.1))

/-- The `share_noise_vector`. -/
def share_noise_vector (ss : ShamirSecretSharing)
    (rands : List (List FieldElement)) (noise : List FieldElement) :
    Except ProtocolError (List (List SecretShare)) :=
  sharing_op (ss.share_vector rands noise)

/-- The `OfflinePhase::execute`: `generate_shuffle_correlation`,
`generate_dp_correlation`, then `distribute_shares`.  The randomly generated
inputs (the permutation, the user masks — `n` uniform vectors of length 2 —
and the Laplace noise values) and the sharing randomness are explicit
parameters.  The auxiliary server (id 0) is always present in the map, so the
`ok_or(ServerNotFound)` lookups cannot fail. -/
def execute (cfg : ToyConfig) (ss : ShamirSecretSharing)
    (perm : List Nat) (masks : List (List FieldElement))
    (noise : List FieldElement)
    (permRand maskRand : List (List (List FieldElement)))
    (noiseRand : List (List FieldElement))
    (servers : Servers) : Except ProtocolError Servers := do
  -- generate_shuffle_correlation
  let matrix := generate_permutation_matrix cfg ss.field perm
  let permutation_shares ← share_permutation_matrix ss permRand matrix
  let aux := servers.aux.store_permutation_shares permutation_shares
  let mask_shares ← share_user_masks ss maskRand masks
  let aux := aux.store_mask_shares mask_shares
  -- generate_dp_correlation
  let noise_sh ← share_noise_vector ss noiseRand noise
  let aux := aux.store_noise_shares noise_sh
  -- distribute_shares: copy the auxiliary server's stores to servers 1 and 2
  let p := aux.permutation_shares
  let m := aux.mask_shares
  let ns := aux.noise_shares
  let comp1 :=
    ((servers.comp1.receive_permutation_shares p).receive_mask_shares m).receive_noise_shares ns
  let comp2 :=
    ((servers.comp2.receive_permutation_shares p).receive_mask_shares m).receive_noise_shares ns
  pure ⟨aux, comp1, comp2⟩

end OfflinePhase

namespace OnlinePhase

/-- One step of the LCG in `compute_user_mask`:
`rng_seed.wrapping_mul(1103515245).wrapping_add(12345)`. -/
def lcg_step (s : Nat) : Nat :=
  (s * 1103515245 + 12345) % u64size

/-- The `for _ in 0..2` loop of `compute_user_mask`. -/
def user_mask_loop (p : Nat) (s : Nat) : Nat → List FieldElement
  | 0 => []
  | k + 1 =>
    let s := lcg_step s
    FieldElement.new (s % p) p :: user_mask_loop p s k

/-- The `compute_user_mask`: a two-element deterministic mask generated by an LCG
seeded with `seed + user_id` (u64 addition). -/
def compute_user_mask (p : Nat) (user_id seed : Nat) : List FieldElement :=
  user_mask_loop p ((seed + user_id) % u64size) 2

/-- The `compute_user_share`: `[x_i]_2 = x_i - a_i`, element-wise. -/
def compute_user_share (user_data mask : List FieldElement) :
    Except ProtocolError (List FieldElement) :=
  if user_data.length ≠ mask.length then .error .DimensionMismatch
  else (user_data.zip mask).mapM (fun dm => field_op (dm.1.sub dm.2))

/-- The `process_user_submissions`. -/
def process_user_submissions (f : FiniteField) (user_data : List UserData) :
    Except ProtocolError (List (List FieldElement)) :=
  user_data.mapM (fun user =>
    compute_user_share user.data (compute_user_mask f.modulus user.user_id user.seed))

/-- The `get_permutation_element`: out-of-range indices and empty share groups
yield zero; otherwise "for simplicity, just return the first share's value". -/
def get_permutation_element (f : FiniteField)
    (permutation_shares : List (List (List SecretShare))) (i j : Nat) :
    Except ProtocolError FieldElement :=
  if i < permutation_shares.length ∧ j < (permutation_shares.getD i []).length then
    match (permutation_shares.getD i []).getD j [] with
    | [] => .ok f.zero
    | share0 :: _ => .ok share0.value
  else .ok f.zero

/-- The `get_noise_element`: out-of-range indices yield zero; in range it returns
`noise_shares[user_id][feature_id].value` (the `feature_id`-th *share* of the
`user_id`-th noise value). -/
def get_noise_element (f : FiniteField) (noise_shares : List (List SecretShare))
    (user_id feature_id : Nat) : Except ProtocolError FieldElement :=
  if user_id < noise_shares.length then
    let share := noise_shares.getD user_id []
    if feature_id < share.length then
      .ok ((share.getD feature_id (SecretShare.mk 0 f.zero f.zero)).value)
    else .ok f.zero
  else .ok f.zero

/-- The `apply_permutation_locally`: `shuffled[i] += perm_element * data[j]` over
an `n × 2` accumulator (the source hardcodes 2 features per user). -/
def apply_permutation_locally (f : FiniteField)
    (data : List (List FieldElement))
    (permutation_shares : List (List (List SecretShare))) :
    Except ProtocolError (List (List FieldElement)) :=
  let n := data.length
  (List.range n).foldlM
    (fun shuffled i =>
      (List.range n).foldlM
        (fun shuffled j => do
          let perm_element ← get_permutation_element f permutation_shares i j
          if perm_element.is_zero then pure shuffled
          else
            (List.range 2).foldlM
              (fun shuffled k => do
                let product ← field_op
                  (perm_element.mul ((data.getD j []).getD k f.zero))
                let sum ← field_op
                  (((shuffled.getD i []).getD k f.zero).add product)
                pure (setMat shuffled i k sum))
              shuffled)
        shuffled)
    (List.replicate n (List.replicate 2 f.zero))

/-- The `add_noise_locally`. -/
def add_noise_locally (f : FiniteField) (data : List (List FieldElement))
    (noise_shares : List (List SecretShare)) :
    Except ProtocolError (List (List FieldElement)) :=
  data.enum.mapM (fun iud =>
    iud.2.enum.mapM (fun jfeat => do
      let noise ← get_noise_element f noise_shares iud.1 jfeat.1
      field_op (jfeat.2.add noise)))

/-- The `compute_local_shuffle`: read the server's permutation shares and apply
them locally. -/
def compute_local_shuffle (f : FiniteField) (server : Server)
    (user_shares : List (List FieldElement)) :
    Except ProtocolError (List (List FieldElement)) :=
  apply_permutation_locally f user_shares server.permutation_shares

/-- The `compute_local_randomization`: add the server's noise shares and store the
result in the server's `final_result` slot. -/
def compute_local_randomization (f : FiniteField) (server : Server)
    (shuffled_shares : List (List FieldElement)) :
    Except ProtocolError (Server × List (List FieldElement)) := do
  let randomized ← add_noise_locally f shuffled_shares server.noise_shares
  pure (server.set_final_result randomized, randomized)

/-- The `combine_server_results`: position-wise field sum over however many server
results are supplied (with bounds checks that silently skip missing data). -/
def combine_server_results (f : FiniteField)
    (server_results : List (List (List FieldElement))) :
    Except ProtocolError (List (List FieldElement)) :=
  if server_results.isEmpty then .error .EmptyInput
  else
    let first := server_results.getD 0 []
    let n := first.length
    (List.range n).mapM (fun i => do
      let feature_count := (first.getD i []).length
      (List.range feature_count).mapM (fun j =>
        server_results.foldlM
          (fun sum sr =>
            if i < sr.length ∧ j < (sr.getD i []).length then
              field_op (sum.add ((sr.getD i []).getD j f.zero))
            else pure sum)
          f.zero))

/-- The `OnlinePhase::execute`: submissions, silent shuffle, silent
randomization, reconstruction.  Both computational servers (ids 1 and 2) run
the local steps; server 1's result is kept as the primary copy, and the final
reveal combines the two servers' `final_result` slots. -/
def execute (f : FiniteField) (servers : Servers) (user_data : List UserData) :
    Except ProtocolError (List (List FieldElement)) := do
  -- process_user_submissions
  let user_shares ← process_user_submissions f user_data
  -- silent_shuffle
  let shuffled1 ← compute_local_shuffle f servers.comp1 user_shares
  let _shuffled2 ← compute_local_shuffle f servers.comp2 user_shares
  let shuffled_shares := shuffled1
  -- silent_randomization
  let cr1 ← compute_local_randomization f servers.comp1 shuffled_shares
  let cr2 ← compute_local_randomization f servers.comp2 shuffled_shares
  -- reconstruct_result
  let server_shares := [cr1.1.get_final_result, cr2.1.get_final_result]
  combine_server_results f server_shares

end OnlinePhase

namespace ToyProtocol

/-- The `ToyProtocol::execute`: offline phase then online phase, on the server map
built by `ToyProtocol::new` (`field = FiniteField::new(cfg.field_modulus)`,
`Shamir(2, 3, cfg.field_modulus)`, servers 0/1/2 with roles
Auxiliary/Computational/Computational). -/
def execute (cfg : ToyConfig)
    (perm : List Nat) (masks : List (List FieldElement))
    (noise : List FieldElement)
    (permRand maskRand : List (List (List FieldElement)))
    (noiseRand : List (List FieldElement))
    (user_data : List UserData) :
    Except ProtocolError (List (List FieldElement)) := do
  let field : FiniteField := ⟨cfg.field_modulus, find_generator cfg.field_modulus⟩
  let ss : ShamirSecretSharing := ⟨2, 3, field⟩
  let servers := Servers.new cfg
  let servers ← OfflinePhase.execute cfg ss perm masks noise permRand maskRand noiseRand servers
  OnlinePhase.execute field servers user_data

end ToyProtocol

/-! Theorems about the embedded operations -/

/-- C10. If no final result has been set on a server (`final_result` is
`none`), `get_final_result` returns the empty vector rather than failing. -/
theorem C10_get_final_result_empty (s : Server) (h : s.final_result = none) :
    s.get_final_result = [] := by
  simp [Server.get_final_result, h]

/-- Witness for C10 at a freshly created server. -/
theorem C10_get_final_result_empty_witness :
    (Server.new 1 ServerRole.Computational ⟨7, 2⟩).get_final_result = [] :=
  C10_get_final_result_empty (Server.new 1 ServerRole.Computational ⟨7, 2⟩) rfl

/-- C4. On a server whose role is `Auxiliary`, all six share-storing
methods (`store_permutation_shares`, `store_mask_shares`, `store_noise_shares`,
`receive_permutation_shares`, `receive_mask_shares`, `receive_noise_shares`)
leave the entire server state unchanged. -/
theorem C4_auxiliary_share_methods_noop (s : Server)
    (h : s.role = ServerRole.Auxiliary)
    (ps ms : List (List (List SecretShare))) (ns : List (List SecretShare)) :
    s.store_permutation_shares ps = s ∧ s.store_mask_shares ms = s ∧
    s.store_noise_shares ns = s ∧ s.receive_permutation_shares ps = s ∧
    s.receive_mask_shares ms = s ∧ s.receive_noise_shares ns = s := by
  have hc : s.is_computational = false := by
    simp [Server.is_computational, h]
  refine ⟨?_, ?_, ?_, ?_, ?_, ?_⟩ <;>
    simp [Server.store_permutation_shares, Server.store_mask_shares,
      Server.store_noise_shares, Server.receive_permutation_shares,
      Server.receive_mask_shares, Server.receive_noise_shares, hc]

/-- Witness for C4 at the concrete auxiliary server of a fresh server map. -/
theorem C4_auxiliary_share_methods_noop_witness :
    (Server.new 0 ServerRole.Auxiliary ⟨7, 2⟩).store_permutation_shares [[[]]]
        = Server.new 0 ServerRole.Auxiliary ⟨7, 2⟩ ∧
    (Server.new 0 ServerRole.Auxiliary ⟨7, 2⟩).store_mask_shares [[[]]]
        = Server.new 0 ServerRole.Auxiliary ⟨7, 2⟩ ∧
    (Server.new 0 ServerRole.Auxiliary ⟨7, 2⟩).store_noise_shares [[]]
        = Server.new 0 ServerRole.Auxiliary ⟨7, 2⟩ ∧
    (Server.new 0 ServerRole.Auxiliary ⟨7, 2⟩).receive_permutation_shares [[[]]]
        = Server.new 0 ServerRole.Auxiliary ⟨7, 2⟩ ∧
    (Server.new 0 ServerRole.Auxiliary ⟨7, 2⟩).receive_mask_shares [[[]]]
        = Server.new 0 ServerRole.Auxiliary ⟨7, 2⟩ ∧
    (Server.new 0 ServerRole.Auxiliary ⟨7, 2⟩).receive_noise_shares [[]]
        = Server.new 0 ServerRole.Auxiliary ⟨7, 2⟩ :=
  C4_auxiliary_share_methods_noop (Server.new 0 ServerRole.Auxiliary ⟨7, 2⟩)
    rfl [[[]]] [[[]]] [[]]

/-- C8, counterexample. The claim says the contributor mask is derived
from `seed XOR userId`.  The pairs `(user_id, seed) = (0, 2)` and `(1, 3)`
have equal XOR (`2 ^^^ 0 = 3 ^^^ 1 = 2`) but `compute_user_mask` gives them
different masks (the code seeds the LCG with `seed + user_id`, which is 2
resp. 4). -/
theorem C8_mask_xor_counterexample :
    (2 ^^^ 0 : Nat) = (3 ^^^ 1 : Nat) ∧
    OnlinePhase.compute_user_mask (2 ^ 64 - 59) 0 2 ≠
      OnlinePhase.compute_user_mask (2 ^ 64 - 59) 1 3 := by
  exact ⟨by decide, by decide⟩

/-- C8, amended. The contributor mask is derived from `seed + userId`
(u64 addition) used as the initial LCG state, so two `(user_id, seed)` pairs
with equal `seed + userId` yield the same mask. -/
theorem C8_mask_from_seed_plus_id (p user_id1 seed1 user_id2 seed2 : Nat)
    (h : seed1 + user_id1 = seed2 + user_id2) :
    OnlinePhase.compute_user_mask p user_id1 seed1 =
      OnlinePhase.compute_user_mask p user_id2 seed2 := by
  simp [OnlinePhase.compute_user_mask, h]

/-- Witness for the amended C8: `(user_id, seed) = (2, 0)` and `(0, 2)` have
equal sum and equal masks. -/
theorem C8_mask_from_seed_plus_id_witness :
    OnlinePhase.compute_user_mask 7 2 0 = OnlinePhase.compute_user_mask 7 0 2 :=
  C8_mask_from_seed_plus_id 7 2 0 0 2 rfl

/-- C9, counterexample. `add_shares` does not check evaluation points: on
single-share lists whose shares have equal ids but different points
(1 versus 2) it succeeds, returning the left operand's point, instead of
failing as the claim requires. -/
theorem C9_points_unchecked_counterexample :
    (SecretShare.mk 0 ⟨1, 7⟩ ⟨1, 7⟩).point ≠ (SecretShare.mk 0 ⟨2, 7⟩ ⟨2, 7⟩).point ∧
    ShamirSecretSharing.add_shares ⟨2, 3, ⟨7, 5⟩⟩
        [SecretShare.mk 0 ⟨1, 7⟩ ⟨1, 7⟩] [SecretShare.mk 0 ⟨2, 7⟩ ⟨2, 7⟩]
      = .ok [SecretShare.mk 0 ⟨3, 7⟩ ⟨1, 7⟩] :=
  ⟨by decide, rfl⟩

/-- C3, counterexample. `reconstruct_secret` with fewer than 2 shares
fails with `DimensionMismatch` (the error kind `InsufficientShares` does not
exist in the code), and a protocol-level reveal in which only one
computational party's result is supplied does not fail at all:
`combine_server_results` returns that party's result unchanged. -/
theorem C3_insufficient_shares_counterexample :
    ShamirSecretSharing.reconstruct_secret ⟨2, 3, ⟨7, 5⟩⟩
        [SecretShare.mk 0 ⟨6, 7⟩ ⟨1, 7⟩] = .error .DimensionMismatch ∧
    OnlinePhase.combine_server_results ⟨7, 5⟩
        [[[⟨1, 7⟩, ⟨2, 7⟩], [⟨3, 7⟩, ⟨4, 7⟩]]]
      = .ok [[⟨1, 7⟩, ⟨2, 7⟩], [⟨3, 7⟩, ⟨4, 7⟩]] :=
  ⟨rfl, rfl⟩

/-- C2. The Shamir round trip fails: sharing the secret 5 over `p = 7`
with random coefficient 1 gives the shares `(6, 0, 1)` at points `(1, 2, 3)`,
and `reconstruct_secret` on each of the three 2-subsets returns 0, 1 and 1
respectively — never the secret 5.  (The source interpolates at `x = n` using
the shares' positions instead of at `x = 0` using their stored points, and
its own unit tests `test_shamir_secret_sharing` assert the round trip.) -/
theorem C2_roundtrip_fails :
    ShamirSecretSharing.share_secret ⟨2, 3, ⟨7, 5⟩⟩ [⟨1, 7⟩] ⟨5, 7⟩
      = .ok [SecretShare.mk 0 ⟨6, 7⟩ ⟨1, 7⟩, SecretShare.mk 1 ⟨0, 7⟩ ⟨2, 7⟩,
             SecretShare.mk 2 ⟨1, 7⟩ ⟨3, 7⟩] ∧
    ShamirSecretSharing.reconstruct_secret ⟨2, 3, ⟨7, 5⟩⟩
        [SecretShare.mk 0 ⟨6, 7⟩ ⟨1, 7⟩, SecretShare.mk 1 ⟨0, 7⟩ ⟨2, 7⟩]
      = .ok ⟨0, 7⟩ ∧
    ShamirSecretSharing.reconstruct_secret ⟨2, 3, ⟨7, 5⟩⟩
        [SecretShare.mk 0 ⟨6, 7⟩ ⟨1, 7⟩, SecretShare.mk 2 ⟨1, 7⟩ ⟨3, 7⟩]
      = .ok ⟨1, 7⟩ ∧
    ShamirSecretSharing.reconstruct_secret ⟨2, 3, ⟨7, 5⟩⟩
        [SecretShare.mk 1 ⟨0, 7⟩ ⟨2, 7⟩, SecretShare.mk 2 ⟨1, 7⟩ ⟨3, 7⟩]
      = .ok ⟨1, 7⟩ ∧
    (⟨0, 7⟩ : FieldElement) ≠ ⟨5, 7⟩ ∧ (⟨1, 7⟩ : FieldElement) ≠ ⟨5, 7⟩ := by
  exact ⟨rfl, rfl, rfl, rfl, by decide, by decide⟩

/-- C1. Running the full protocol (offline then online) in no-noise mode
on `p = 7`, two users with data `(0,0)` and `(1,1)`, the identity permutation
and all-zero sharing randomness reveals `[[0,0],[0,0]]`, which is **not** a
permutation of the input records.  (The auxiliary server's role-gated share
stores are no-ops, so the computational servers receive empty share stores
and the online phase multiplies every submission by zero.) -/
theorem C1_revealed_output_not_permutation :
    ToyProtocol.execute ⟨7, 2⟩ [0, 1]
        [[⟨0, 7⟩, ⟨0, 7⟩], [⟨0, 7⟩, ⟨0, 7⟩]] [⟨0, 7⟩, ⟨0, 7⟩]
        [[[⟨0, 7⟩], [⟨0, 7⟩]], [[⟨0, 7⟩], [⟨0, 7⟩]]]
        [[[⟨0, 7⟩], [⟨0, 7⟩]], [[⟨0, 7⟩], [⟨0, 7⟩]]]
        [[⟨0, 7⟩], [⟨0, 7⟩]]
        [⟨0, [⟨0, 7⟩, ⟨0, 7⟩], 0⟩, ⟨1, [⟨1, 7⟩, ⟨1, 7⟩], 0⟩]
      = .ok [[⟨0, 7⟩, ⟨0, 7⟩], [⟨0, 7⟩, ⟨0, 7⟩]] ∧
    Multiset.ofList [[(⟨0, 7⟩ : FieldElement), ⟨0, 7⟩], [⟨0, 7⟩, ⟨0, 7⟩]] ≠
      Multiset.ofList [[(⟨0, 7⟩ : FieldElement), ⟨0, 7⟩], [⟨1, 7⟩, ⟨1, 7⟩]] := by
  exact ⟨rfl, by decide⟩

/-! Shared helper lemmas -/

/-- The `mapM` over `Except` succeeds pointwise. -/
theorem mapM_ok_of_forall {ε α β : Type} (g : β → Except ε α) (h : β → α) :
    ∀ l : List β, (∀ x ∈ l, g x = .ok (h x)) → l.mapM g = .ok (l.map h) := by
  intro l
  induction l with
  | nil => intro _; rfl
  | cons a l ih =>
    intro hall
    rw [List.mapM_cons, hall a (by simp), ih (fun x hx => hall x (by simp [hx]))]
    rfl

/-- Reading every position of a list through `getD` reproduces the list. -/
theorem map_getD_range {α : Type} (l : List α) (d : α) :
    (List.range l.length).map (fun i => l.getD i d) = l := by
  apply List.ext_getElem
  · simp
  · intro n h1 h2
    rw [List.getElem_map]
    rw [List.getD_eq_getElem l d (by simpa using h2)]
    simp

/-- The `getD` at an in-range index is a member. -/
theorem getD_mem_of_lt {α : Type} (l : List α) (d : α) {n : Nat} (h : n < l.length) :
    l.getD n d ∈ l := by
  rw [List.getD_eq_getElem l d h]
  exact List.getElem_mem h

/-- The conditional subtraction in `FieldElement::add` computes the remainder
of the sum. -/
theorem reduce_once_mod (s p : Nat) :
    (if s ≥ p then s - p else s) % p = s % p := by
  by_cases hs : s ≥ p
  · rw [if_pos hs, Nat.mod_eq_sub_mod hs]
  · rw [if_neg hs]

/-- Adding zero (as `FieldElement::add`) to a reduced element of the same
field returns it unchanged. -/
theorem zero_add_reduced (f : FiniteField) (x : FieldElement)
    (h64 : f.modulus ≤ u64size) (hm : x.modulus = f.modulus)
    (hv : x.value < f.modulus) :
    f.zero.add x = .ok x := by
  obtain ⟨xv, xm⟩ := x
  simp only at hm hv
  subst hm
  simp only [FieldElement.add, FiniteField.zero, FieldElement.zero,
    FieldElement.new]
  rw [if_neg (by simp)]
  have h1 : (0 + xv) % u64size = xv := by
    rw [Nat.zero_add, Nat.mod_eq_of_lt (Nat.lt_of_lt_of_le hv h64)]
  simp only [h1]
  rw [if_neg (by omega), Nat.mod_eq_of_lt hv]

/-- C3, amended. `reconstruct_secret` with fewer than `threshold` (= 2 in
the protocol) shares fails with `DimensionMismatch`, and a reveal in which
only one computational party's (well-formed) result is supplied does not
fail: `combine_server_results` returns that result unchanged. -/
theorem C3_reveal_amended (ss : ShamirSecretSharing) (shares : List SecretShare)
    (f : FiniteField) (r : List (List FieldElement))
    (hlen : shares.length < ss.threshold)
    (h64 : f.modulus ≤ u64size)
    (hr : ∀ row ∈ r, ∀ x ∈ row, x.modulus = f.modulus ∧ x.value < f.modulus) :
    ss.reconstruct_secret shares = .error .DimensionMismatch ∧
    OnlinePhase.combine_server_results f [r] = .ok r := by
  constructor
  · unfold ShamirSecretSharing.reconstruct_secret
    rw [if_pos hlen]
  · unfold OnlinePhase.combine_server_results
    rw [if_neg (by simp)]
    have outer : ∀ i ∈ List.range r.length,
        (List.range ((r.getD i []).length)).mapM
            (fun j => List.foldlM
              (fun sum sr =>
                if i < sr.length ∧ j < (sr.getD i []).length then
                  field_op (sum.add ((sr.getD i []).getD j f.zero))
                else pure sum)
              f.zero [r])
          = .ok (r.getD i []) := by
      intro i hi
      have hi' : i < r.length := List.mem_range.mp hi
      have hrow : r.getD i [] ∈ r := getD_mem_of_lt r [] hi'
      have inner : ∀ j ∈ List.range ((r.getD i []).length),
          List.foldlM
              (fun sum sr =>
                if i < sr.length ∧ j < (sr.getD i []).length then
                  field_op (sum.add ((sr.getD i []).getD j f.zero))
                else pure sum)
              f.zero [r]
            = .ok ((r.getD i []).getD j f.zero) := by
        intro j hj
        have hj' : j < (r.getD i []).length := List.mem_range.mp hj
        have hx : (r.getD i []).getD j f.zero ∈ r.getD i [] :=
          getD_mem_of_lt _ _ hj'
        obtain ⟨hxm, hxv⟩ := hr _ hrow _ hx
        show (if i < r.length ∧ j < (r.getD i []).length then
            field_op (f.zero.add ((r.getD i []).getD j f.zero))
          else pure f.zero) >>= _ = _
        rw [if_pos ⟨hi', hj'⟩, zero_add_reduced f _ h64 hxm hxv]
        rfl
      have h2 := mapM_ok_of_forall _
        (fun j => (r.getD i []).getD j f.zero) _ inner
      rw [map_getD_range] at h2
      exact h2
    have h1 := mapM_ok_of_forall _ (fun i => r.getD i []) _ outer
    rw [map_getD_range] at h1
    exact h1

/-- Witness for the amended C3 at a concrete one-party reveal over `p = 7`. -/
theorem C3_reveal_amended_witness :
    ShamirSecretSharing.reconstruct_secret ⟨2, 3, ⟨7, 5⟩⟩ [] = .error .DimensionMismatch ∧
    OnlinePhase.combine_server_results ⟨7, 5⟩ [[[⟨1, 7⟩, ⟨2, 7⟩]]]
      = .ok [[⟨1, 7⟩, ⟨2, 7⟩]] :=
  C3_reveal_amended ⟨2, 3, ⟨7, 5⟩⟩ [] ⟨7, 5⟩ [[⟨1, 7⟩, ⟨2, 7⟩]]
    (by decide) (by decide) (by decide)

/-- The `FieldElement::add` on same-modulus operands always succeeds. -/
theorem add_ok_of_modeq (x y : FieldElement) (h : x.modulus = y.modulus) :
    ∃ c, x.add y = .ok c := by
  unfold FieldElement.add
  rw [if_neg (by simp [h])]
  exact ⟨_, rfl⟩

/-- The `FieldElement::add` on reduced same-field operands (with `2p ≤ 2^64`, so
the u64 sum does not wrap) computes the field sum. -/
theorem add_reduced (p : Nat) (x y : FieldElement) (hx : x.modulus = p)
    (hy : y.modulus = p) (hxv : x.value < p) (hyv : y.value < p)
    (hp2 : 2 * p ≤ u64size) :
    x.add y = .ok ⟨(x.value + y.value) % p, p⟩ := by
  obtain ⟨xv, xm⟩ := x
  obtain ⟨yv, ym⟩ := y
  simp only at hx hy hxv hyv
  subst hx
  subst hy
  simp only [FieldElement.add, FieldElement.new]
  rw [if_neg (by simp)]
  have hs : (xv + yv) % u64size = xv + yv := Nat.mod_eq_of_lt (by omega)
  simp only [hs]
  rw [reduce_once_mod]

/-- The element-wise loop of `add_shares` hits the id check: if some pair has
mismatched ids (and moduli agree, so the value additions cannot fail first),
the whole `mapM` returns `DimensionMismatch`. -/
theorem addpairs_error_of_mismatch (p : Nat) :
    ∀ l : List (SecretShare × SecretShare),
    (∀ pr ∈ l, pr.1.value.modulus = p ∧ pr.2.value.modulus = p) →
    (∃ pr ∈ l, pr.1.id ≠ pr.2.id) →
    l.mapM (fun pair =>
      if pair.1.id ≠ pair.2.id then
        (Except.error FieldError.DimensionMismatch : Except FieldError SecretShare)
      else do
        let sum ← pair.1.value.add pair.2.value
        pure (SecretShare.mk pair.1.id sum pair.1.point))
      = .error FieldError.DimensionMismatch := by
  intro l
  induction l with
  | nil => intro _ hex; simp at hex
  | cons pr l ih =>
    intro hmod hex
    rw [List.mapM_cons]
    by_cases hne : pr.1.id ≠ pr.2.id
    · rw [if_pos hne]
      rfl
    · rw [if_neg hne]
      obtain ⟨h1, h2⟩ := hmod pr (by simp)
      obtain ⟨c, hc⟩ := add_ok_of_modeq pr.1.value pr.2.value (h1.trans h2.symm)
      have hex' : ∃ x ∈ l, x.1.id ≠ x.2.id := by
        rcases hex with ⟨x, hx, hxne⟩
        rcases List.mem_cons.mp hx with hx | hx
        · exact absurd (hx ▸ hxne) hne
        · exact ⟨x, hx, hxne⟩
      rw [hc, ih (fun x hx => hmod x (by simp [hx])) hex']
      rfl

/-- C9, amended. For share lists of equal length over the same field
(with reduced values and `2p ≤ 2^64`): `add_shares` fails with
`DimensionMismatch` whenever some position has mismatched ids, and when all
ids match it succeeds, each output share taking the left operand's id and
point and the field sum of the two values.  (Evaluation points are *not*
checked, as the counterexample shows.) -/
theorem C9_add_shares_amended (ss : ShamirSecretSharing) (a b : List SecretShare)
    (hp2 : 2 * ss.field.modulus ≤ u64size)
    (hlen : a.length = b.length)
    (hwf : ∀ pr ∈ a.zip b, pr.1.value.modulus = ss.field.modulus ∧
      pr.2.value.modulus = ss.field.modulus ∧
      pr.1.value.value < ss.field.modulus ∧ pr.2.value.value < ss.field.modulus) :
    ((∃ pr ∈ a.zip b, pr.1.id ≠ pr.2.id) →
      ss.add_shares a b = .error .DimensionMismatch) ∧
    ((∀ pr ∈ a.zip b, pr.1.id = pr.2.id) →
      ss.add_shares a b = .ok ((a.zip b).map (fun pr =>
        SecretShare.mk pr.1.id
          ⟨(pr.1.value.value + pr.2.value.value) % ss.field.modulus,
            ss.field.modulus⟩
          pr.1.point))) := by
  constructor
  · intro hex
    unfold ShamirSecretSharing.add_shares
    rw [if_neg (by simp [hlen])]
    exact addpairs_error_of_mismatch ss.field.modulus (a.zip b)
      (fun pr hpr => ⟨(hwf pr hpr).1, (hwf pr hpr).2.1⟩) hex
  · intro hall
    unfold ShamirSecretSharing.add_shares
    rw [if_neg (by simp [hlen])]
    apply mapM_ok_of_forall
    intro pr hpr
    obtain ⟨h1, h2, h3, h4⟩ := hwf pr hpr
    have hne : ¬ pr.1.id ≠ pr.2.id := by simp [hall pr hpr]
    rw [if_neg hne, add_reduced ss.field.modulus _ _ h1 h2 h3 h4 hp2]
    rfl

/-- Witness for the amended C9: adding the shares `(id 0, 6, point 1)` and
`(id 0, 4, point 2)` over `p = 7` yields `(id 0, 3, point 1)`. -/
theorem C9_add_shares_amended_witness :
    ShamirSecretSharing.add_shares ⟨2, 3, ⟨7, 5⟩⟩
        [SecretShare.mk 0 ⟨6, 7⟩ ⟨1, 7⟩] [SecretShare.mk 0 ⟨4, 7⟩ ⟨2, 7⟩]
      = .ok [SecretShare.mk 0 ⟨3, 7⟩ ⟨1, 7⟩] := by
  have h := (C9_add_shares_amended ⟨2, 3, ⟨7, 5⟩⟩
    [SecretShare.mk 0 ⟨6, 7⟩ ⟨1, 7⟩] [SecretShare.mk 0 ⟨4, 7⟩ ⟨2, 7⟩]
    (by decide) rfl (by decide)).2 (by decide)
  exact h

/-- The `FieldElement::mul` on same-field operands computes the reduced product. -/
theorem mul_reduced (p : Nat) (hp : 0 < p) (x y : FieldElement)
    (hx : x.modulus = p) (hy : y.modulus = p) :
    x.mul y = .ok ⟨(x.value * y.value) % p, p⟩ := by
  obtain ⟨xv, xm⟩ := x
  obtain ⟨yv, ym⟩ := y
  simp only at hx hy
  subst hx
  subst hy
  simp only [FieldElement.mul, FieldElement.new]
  rw [if_neg (by simp)]
  rw [Nat.mod_eq_of_lt (Nat.mod_lt _ hp)]

/-- The square-and-multiply loop preserves the field and keeps the
accumulator reduced, for any fuel and exponent. -/
theorem powFuel_range (p : Nat) (hp : 0 < p) :
    ∀ (fuel : Nat) (base result : FieldElement) (e : Nat),
      base.modulus = p → result.modulus = p → result.value < p →
      ∃ c, FieldElement.powFuel fuel base result e = .ok c ∧
        c.value < p ∧ c.modulus = p := by
  intro fuel
  induction fuel with
  | zero =>
    intro base result e hb hr hv
    exact ⟨result, rfl, hv, hr⟩
  | succ fuel ih =>
    intro base result e hb hr hv
    simp only [FieldElement.powFuel]
    by_cases he : e = 0
    · rw [if_pos he]
      exact ⟨result, rfl, hv, hr⟩
    · rw [if_neg he]
      by_cases hodd : e % 2 = 1
      · rw [if_pos hodd, mul_reduced p hp result base hr hb,
          mul_reduced p hp base base hb hb]
        obtain ⟨c, hc, h1, h2⟩ :=
          ih ⟨(base.value * base.value) % p, p⟩
            ⟨(result.value * base.value) % p, p⟩ (e / 2) rfl rfl
            (Nat.mod_lt _ hp)
        exact ⟨c, hc, h1, h2⟩
      · rw [if_neg hodd, mul_reduced p hp base base hb hb]
        obtain ⟨c, hc, h1, h2⟩ :=
          ih ⟨(base.value * base.value) % p, p⟩ result (e / 2) rfl hr hv
        exact ⟨c, hc, h1, h2⟩

/-- The `FieldElement::pow` over a modulus `p > 1` always succeeds with a reduced
result in the same field. -/
theorem pow_range (p : Nat) (hp : 1 < p) (a : FieldElement) (ha : a.modulus = p)
    (e : Nat) :
    ∃ c, a.pow e = .ok c ∧ c.value < p ∧ c.modulus = p := by
  unfold FieldElement.pow
  by_cases he : e = 0
  · rw [if_pos he]
    exact ⟨⟨1, a.modulus⟩, rfl, by simpa [ha] using hp, by simp [ha]⟩
  · rw [if_neg he]
    exact powFuel_range p (by omega) e a (FieldElement.one a.modulus) e ha
      (by simp [FieldElement.one, ha]) (by simpa [FieldElement.one, ha] using hp)

/-- C6. Over a prime modulus `p`, with reduced operands: `add`, `sub`,
`mul` and `pow` succeed with results whose value lies in `[0, p)` and whose
modulus is `p`; a successful `inverse` likewise returns a reduced element of
the field; and `add`/`sub`/`mul` against an element of a different modulus
fail with `ModulusMismatch`. -/
theorem C6_field_range_invariant (p va vb vc q e : Nat) (c : FieldElement)
    (hp : Nat.Prime p) (hva : va < p) (hvb : vb < p)
    (hq : q ≠ p)
    (hcinv : FieldElement.inverse ⟨va, p⟩ = .ok c) :
    (∃ r, FieldElement.add ⟨va, p⟩ ⟨vb, p⟩ = .ok r ∧ r.value < p ∧ r.modulus = p) ∧
    (∃ r, FieldElement.sub ⟨va, p⟩ ⟨vb, p⟩ = .ok r ∧ r.value < p ∧ r.modulus = p) ∧
    (∃ r, FieldElement.mul ⟨va, p⟩ ⟨vb, p⟩ = .ok r ∧ r.value < p ∧ r.modulus = p) ∧
    (c.value < p ∧ c.modulus = p) ∧
    (∃ r, FieldElement.pow ⟨va, p⟩ e = .ok r ∧ r.value < p ∧ r.modulus = p) ∧
    FieldElement.add ⟨va, p⟩ ⟨vc, q⟩ = .error .ModulusMismatch ∧
    FieldElement.sub ⟨va, p⟩ ⟨vc, q⟩ = .error .ModulusMismatch ∧
    FieldElement.mul ⟨va, p⟩ ⟨vc, q⟩ = .error .ModulusMismatch := by
  have hp0 : 0 < p := hp.pos
  have hpq : ¬ ((⟨va, p⟩ : FieldElement).modulus = (⟨vc, q⟩ : FieldElement).modulus) := by
    simp only []
    exact fun h => hq h.symm
  refine ⟨?_, ?_, ?_, ?_, ?_, ?_, ?_, ?_⟩
  · simp only [FieldElement.add, FieldElement.new]
    rw [if_neg (by simp)]
    exact ⟨_, rfl, Nat.mod_lt _ hp0, rfl⟩
  · simp only [FieldElement.sub, FieldElement.new]
    rw [if_neg (by simp)]
    exact ⟨_, rfl, Nat.mod_lt _ hp0, rfl⟩
  · simp only [FieldElement.mul, FieldElement.new]
    rw [if_neg (by simp)]
    exact ⟨_, rfl, Nat.mod_lt _ hp0, rfl⟩
  · simp only [FieldElement.inverse] at hcinv
    split at hcinv
    · exact absurd hcinv (by simp)
    · split at hcinv
      · exact absurd hcinv (by simp)
      · have := hcinv
        injection this with h
        subst h
        exact ⟨Nat.mod_lt _ hp0, rfl⟩
  · exact pow_range p hp.one_lt ⟨va, p⟩ rfl e
  · unfold FieldElement.add
    rw [if_pos hpq]
  · unfold FieldElement.sub
    rw [if_pos hpq]
  · unfold FieldElement.mul
    rw [if_pos hpq]

/-- Witness for C6 at `p = 7`, `a = 3`, `b = 5`, `e = 4`, mismatched modulus
`q = 5`, and the successful inverse `3⁻¹ = 5`. -/
theorem C6_field_range_invariant_witness :
    (∃ r, FieldElement.add ⟨3, 7⟩ ⟨5, 7⟩ = .ok r ∧ r.value < 7 ∧ r.modulus = 7) ∧
    (∃ r, FieldElement.sub ⟨3, 7⟩ ⟨5, 7⟩ = .ok r ∧ r.value < 7 ∧ r.modulus = 7) ∧
    (∃ r, FieldElement.mul ⟨3, 7⟩ ⟨5, 7⟩ = .ok r ∧ r.value < 7 ∧ r.modulus = 7) ∧
    ((⟨5, 7⟩ : FieldElement).value < 7 ∧ (⟨5, 7⟩ : FieldElement).modulus = 7) ∧
    (∃ r, FieldElement.pow ⟨3, 7⟩ 4 = .ok r ∧ r.value < 7 ∧ r.modulus = 7) ∧
    FieldElement.add ⟨3, 7⟩ ⟨1, 5⟩ = .error .ModulusMismatch ∧
    FieldElement.sub ⟨3, 7⟩ ⟨1, 5⟩ = .error .ModulusMismatch ∧
    FieldElement.mul ⟨3, 7⟩ ⟨1, 5⟩ = .error .ModulusMismatch :=
  C6_field_range_invariant 7 3 5 1 5 4 ⟨5, 7⟩ (by norm_num) (by decide) (by decide)
    (by decide) rfl

/-- Loop invariant of the extended-Euclid loop in `FieldElement::inverse`:
starting from a state whose coefficients track `a` modulo `p`, whose pair
`(r, newR)` has the gcd of `(p, a)`, whose determinant `t·newR − newT·r` is
`±p` with alternating signs, and whose `t` is bounded by `p` in absolute
value, the loop returns `(t, r)` with `t·a ≡ r (mod p)`, `r = gcd a p` and
`|t| ≤ p`. -/
theorem egcd_invariant (p a : Nat) (hp : 0 < p) :
    ∀ (fuel newR r : Nat) (t newT : Int),
      newR < fuel → 1 ≤ r →
      (p : Int) ∣ (t * a - r) →
      (p : Int) ∣ (newT * a - newR) →
      Nat.gcd newR r = Nat.gcd a p →
      ((0 ≤ t ∧ newT ≤ 0) ∨ (t ≤ 0 ∧ 0 ≤ newT)) →
      (t * newR - newT * r = (p : Int) ∨ t * newR - newT * r = -(p : Int)) →
      t.natAbs ≤ p →
      (p : Int) ∣ ((FieldElement.egcdFuel fuel t newT r newR).1 * a -
        (FieldElement.egcdFuel fuel t newT r newR).2) ∧
      (FieldElement.egcdFuel fuel t newT r newR).2 = Nat.gcd a p ∧
      (FieldElement.egcdFuel fuel t newT r newR).1.natAbs ≤ p := by
  intro fuel
  induction fuel with
  | zero =>
    intro newR r t newT hfuel
    omega
  | succ fuel ih =>
    intro newR r t newT hfuel hr h1 h2 hgcd hsign hdet habs
    by_cases hnr : newR = 0
    · subst hnr
      have hstep : FieldElement.egcdFuel (fuel + 1) t newT r 0 = (t, r) := by
        simp [FieldElement.egcdFuel]
      rw [hstep]
      refine ⟨h1, ?_, habs⟩
      rw [← hgcd, Nat.gcd_zero_left]
    · have hnrpos : 0 < newR := Nat.pos_of_ne_zero hnr
      simp only [FieldElement.egcdFuel]
      rw [if_neg hnr]
      set q : Int := ((r / newR : Nat) : Int) with hqdef
      have hq0 : 0 ≤ q := Int.natCast_nonneg _
      have hmodcast : ((r % newR : Nat) : Int) = (r : Int) - q * newR := by
        have h2 : ((newR : Int) * ((r / newR : Nat) : Int) +
            ((r % newR : Nat) : Int)) = (r : Int) := by
          rw [← Nat.cast_mul, ← Nat.cast_add, Nat.div_add_mod]
        have h3 : q * (newR : Int) = (newR : Int) * ((r / newR : Nat) : Int) := by
          rw [hqdef]; ring
        linarith
      have hrge1 : (1 : Int) ≤ (r : Int) := by exact_mod_cast hr
      -- the bound |newT| ≤ p, from the sign pattern and the determinant
      have habsNewT : newT.natAbs ≤ p := by
        rcases hsign with ⟨ht, hnt⟩ | ⟨ht, hnt⟩
        · have htnr : 0 ≤ t * (newR : Int) := mul_nonneg ht (Int.natCast_nonneg _)
          have hntr : newT * (r : Int) ≤ 0 :=
            mul_nonpos_of_nonpos_of_nonneg hnt (Int.natCast_nonneg _)
          have hdeq : t * newR - newT * r = (p : Int) := by
            rcases hdet with h | h
            · exact h
            · exfalso
              have hp1 : (1 : Int) ≤ (p : Int) := by exact_mod_cast hp
              linarith
          have hle : -newT ≤ (-newT) * (r : Int) :=
            le_mul_of_one_le_right (by linarith) hrge1
          have : -newT ≤ (p : Int) := by
            have hnegmul : (-newT) * (r : Int) = -(newT * (r : Int)) := by ring
            linarith
          omega
        · have htnr : t * (newR : Int) ≤ 0 :=
            mul_nonpos_of_nonpos_of_nonneg ht (Int.natCast_nonneg _)
          have hdeq : t * newR - newT * r = -(p : Int) := by
            rcases hdet with h | h
            · exfalso
              have hp1 : (1 : Int) ≤ (p : Int) := by exact_mod_cast hp
              have hntr : 0 ≤ newT * (r : Int) :=
                mul_nonneg hnt (Int.natCast_nonneg _)
              linarith
            · exact h
          have hle : newT ≤ newT * (r : Int) :=
            le_mul_of_one_le_right hnt hrge1
          have : newT ≤ (p : Int) := by linarith
          omega
      apply ih (r % newR) newR newT (t - q * newT)
      · have := Nat.mod_lt r hnrpos
        omega
      · exact hnrpos
      · exact h2
      · have heq : (t - q * newT) * (a : Int) - ((r : Int) - q * newR) =
            (t * a - r) - q * (newT * a - newR) := by ring
        rw [hmodcast, heq]
        exact dvd_sub h1 (Dvd.dvd.mul_left h2 q)
      · rw [← Nat.gcd_rec]
        exact hgcd
      · rcases hsign with ⟨ht, hnt⟩ | ⟨ht, hnt⟩
        · have hqn : q * newT ≤ 0 := by
            have h := mul_nonpos_of_nonpos_of_nonneg hnt hq0
            have hcomm : q * newT = newT * q := by ring
            linarith
          exact Or.inr ⟨hnt, by linarith⟩
        · have hqn : 0 ≤ q * newT := mul_nonneg hq0 hnt
          exact Or.inl ⟨hnt, by linarith⟩
      · have hflip : newT * ((r % newR : Nat) : Int) - (t - q * newT) * newR =
            -(t * newR - newT * r) := by
          rw [hmodcast]; ring
        rcases hdet with h | h
        · right
          rw [hflip, h]
        · left
          rw [hflip, h]
          ring
      · exact habsNewT

/-- The `FieldElement::inverse` on a nonzero reduced element of a prime field
(with `p < 2^63`, the spec's modulus bound, under which the `i64` arithmetic
of the source loop agrees with the integer arithmetic modelled here) returns
a reduced element `w` with `v * w ≡ 1 (mod p)`. -/
theorem inverse_spec (p v : Nat) (hp : Nat.Prime p) (h63 : p < 2 ^ 63)
    (hv : v < p) (hv0 : v ≠ 0) :
    ∃ w, FieldElement.inverse ⟨v, p⟩ = .ok ⟨w, p⟩ ∧ w < p ∧ (v * w) % p = 1 := by
  have hp0 : 0 < p := hp.pos
  have hp1 : 1 < p := hp.one_lt
  have hinv := egcd_invariant p v hp0 (v + 1) v p 0 1
    (by omega) (by omega)
    (by
      have h : (0 : Int) * v - p = -(p : Int) := by ring
      rw [h]
      exact Dvd.dvd.neg_right dvd_rfl)
    (by
      have h : (1 : Int) * v - v = 0 := by ring
      rw [h]
      exact dvd_zero _)
    rfl
    (Or.inr ⟨le_refl 0, by norm_num⟩)
    (by
      right
      ring)
    (by simp)
  obtain ⟨hdvd, hgcd, habs⟩ := hinv
  have hg1 : Nat.gcd v p = 1 := by
    rw [Nat.gcd_comm]
    exact (Nat.Prime.coprime_iff_not_dvd hp).mpr
      (fun hd => absurd (Nat.le_of_dvd (Nat.pos_of_ne_zero hv0) hd) (by omega))
  set res := FieldElement.egcdFuel (v + 1) 0 1 p v with hres
  have hres2 : res.2 = 1 := by rw [← hg1]; exact hgcd
  set tAdj : Int := if res.1 < 0 then res.1 + (p : Int) else res.1 with htAdj
  have htb : 0 ≤ tAdj ∧ tAdj ≤ (p : Int) := by
    rw [htAdj]
    by_cases hneg : res.1 < 0
    · rw [if_pos hneg]
      omega
    · rw [if_neg hneg]
      omega
  have hinv_eq : FieldElement.inverse ⟨v, p⟩ =
      .ok (FieldElement.new (FieldElement.u64ofInt tAdj) p) := by
    unfold FieldElement.inverse
    rw [if_neg (by simp [FieldElement.is_zero, hv0])]
    rw [if_neg (by rw [← hres] at *; rw [hres2]; omega)]
  have hu64 : FieldElement.u64ofInt tAdj = tAdj.toNat := by
    unfold FieldElement.u64ofInt
    rw [Int.emod_eq_of_lt htb.1 (by
      have : ((u64size : Nat) : Int) = 2 ^ 64 := by norm_num [u64size]
      omega)]
  -- the divisibility fact carried over to the adjusted coefficient
  have hdvd1 : (p : Int) ∣ res.1 * v - 1 := by
    have h := hdvd
    rw [hres2] at h
    exact_mod_cast h
  have hdvdAdj : (p : Int) ∣ tAdj * v - 1 := by
    rw [htAdj]
    by_cases hneg : res.1 < 0
    · rw [if_pos hneg]
      have h : (res.1 + (p : Int)) * v - 1 = (res.1 * v - 1) + (p : Int) * v := by
        ring
      rw [h]
      exact dvd_add hdvd1 (dvd_mul_right _ _)
    · rw [if_neg hneg]
      exact hdvd1
  refine ⟨tAdj.toNat % p, ?_, Nat.mod_lt _ hp0, ?_⟩
  · rw [hinv_eq, hu64]
    rfl
  · -- (v * (tAdj.toNat % p)) % p = 1, via the congruence v * tAdj ≡ 1 (mod p)
    have hcast : ((v * (tAdj.toNat % p)) % p : Nat) = (((v : Int) * (tAdj % p)) % p).toNat := by
      have h1 : ((tAdj.toNat % p : Nat) : Int) = tAdj % (p : Int) := by
        rw [Int.natCast_mod, Int.toNat_of_nonneg htb.1]
      have h2 : (((v * (tAdj.toNat % p)) % p : Nat) : Int) =
          ((v : Int) * (tAdj % p)) % p := by
        rw [Int.natCast_mod]
        push_cast [h1]
        rfl
      omega
    have hm1 : ((v : Int) * (tAdj % p)) % p = ((v : Int) * tAdj) % p := by
      conv_rhs => rw [Int.mul_emod]
      rw [Int.mul_emod ((v : Int)) (tAdj % p)]
      rw [Int.emod_emod_of_dvd _ dvd_rfl]
    have hm2 : ((v : Int) * tAdj) % p = 1 := by
      have hmodeq : (1 : Int) % p = (tAdj * v) % p := by
        exact Int.modEq_iff_dvd.mpr hdvdAdj
      have hone : (1 : Int) % p = 1 := Int.emod_eq_of_lt (by norm_num) (by omega)
      rw [mul_comm]
      omega
    rw [hcast, hm1, hm2]
    rfl

/-- C5. Over a prime modulus `p` (below the spec's `2^63` modulus bound,
§4.1, under which the source's `i64` extended-Euclid arithmetic is exact):
`inverse(0)` fails with `DivisionByZero`, and for a nonzero reduced element
`a`, `inverse(a)` succeeds and `mul(a, inverse(a))` is the field's one. -/
theorem C5_inverse_mul_one (p v : Nat) (hp : Nat.Prime p) (h63 : p < 2 ^ 63)
    (hv : v < p) (hv0 : v ≠ 0) :
    FieldElement.inverse ⟨0, p⟩ = .error .DivisionByZero ∧
    ∃ c, FieldElement.inverse ⟨v, p⟩ = .ok c ∧
      FieldElement.mul ⟨v, p⟩ c = .ok (FieldElement.one p) := by
  constructor
  · unfold FieldElement.inverse
    rw [if_pos (by simp [FieldElement.is_zero])]
  · obtain ⟨w, hw, hwlt, hmul⟩ := inverse_spec p v hp h63 hv hv0
    refine ⟨⟨w, p⟩, hw, ?_⟩
    rw [mul_reduced p hp.pos ⟨v, p⟩ ⟨w, p⟩ rfl rfl]
    rw [show (⟨v, p⟩ : FieldElement).value * (⟨w, p⟩ : FieldElement).value = v * w
      from rfl, hmul]
    rfl

/-- Witness for C5 at `p = 7`, `a = 3` (inverse 5, `3 · 5 = 1`). -/
theorem C5_inverse_mul_one_witness :
    FieldElement.inverse ⟨0, 7⟩ = .error .DivisionByZero ∧
    ∃ c, FieldElement.inverse ⟨3, 7⟩ = .ok c ∧
      FieldElement.mul ⟨3, 7⟩ c = .ok (FieldElement.one 7) :=
  C5_inverse_mul_one 7 3 (by decide) (by decide) (by decide) (by decide)

/-- The `setMat` preserves the number of rows. -/
theorem setMat_length (m : List (List FieldElement)) (i k : Nat) (v : FieldElement) :
    (setMat m i k v).length = m.length :=
  List.length_set m i _

/-- Reading back the row `setMat` wrote. -/
theorem setMat_getD_self (m : List (List FieldElement)) (i k : Nat)
    (v : FieldElement) (h : i < m.length) :
    (setMat m i k v).getD i [] = (m.getD i []).set k v := by
  unfold setMat
  rw [List.getD_eq_getElem _ _ (by rw [List.length_set]; exact h)]
  rw [List.getElem_set]
  rw [if_pos rfl]

/-- The `setMat` leaves the other rows alone. -/
theorem setMat_getD_ne (m : List (List FieldElement)) (i k : Nat)
    (v : FieldElement) (j : Nat) (h : i ≠ j) :
    (setMat m i k v).getD j [] = m.getD j [] := by
  unfold setMat
  by_cases hj : j < m.length
  · rw [List.getD_eq_getElem _ _ (by rw [List.length_set]; exact hj),
      List.getD_eq_getElem _ _ hj, List.getElem_set, if_neg h]
  · rw [List.getD_eq_default _ _ (by rw [List.length_set]; omega),
      List.getD_eq_default _ _ (by omega)]

/-- The permutation-matrix fill loop preserves the number of rows. -/
theorem fill_length (f : FiniteField) :
    ∀ (el : List (Nat × Nat)) (m : List (List FieldElement)),
      (el.foldl (fun matrix ipos => setMat matrix ipos.1 ipos.2 f.one) m).length
        = m.length := by
  intro el
  induction el with
  | nil => intro m; rfl
  | cons a el ih =>
    intro m
    rw [List.foldl_cons, ih]
    exact setMat_length m a.1 a.2 f.one

/-- Row `i` of the permutation-matrix fill loop: each enumerated entry
`(i, pos)` writes a one into row `i` at column `pos`, once. -/
theorem fill_getD (f : FiniteField) :
    ∀ (l : List Nat) (s : Nat) (m : List (List FieldElement)) (i : Nat),
      s + l.length ≤ m.length →
      ((List.enumFrom s l).foldl
          (fun matrix ipos => setMat matrix ipos.1 ipos.2 f.one) m).getD i []
        = if s ≤ i ∧ i < s + l.length
          then (m.getD i []).set (l.getD (i - s) 0) f.one
          else m.getD i [] := by
  intro l
  induction l with
  | nil =>
    intro s m i hlen
    rw [if_neg (by simp only [List.length_nil]; omega)]
    rfl
  | cons a l ih =>
    intro s m i hlen
    rw [List.enumFrom_cons, List.foldl_cons]
    rw [ih (s + 1) (setMat m s a f.one) i
      (by rw [setMat_length]; simp only [List.length_cons] at hlen; omega)]
    by_cases his : i = s
    · subst his
      rw [if_neg (by omega),
        if_pos ⟨Nat.le_refl i, by simp only [List.length_cons]; omega⟩]
      rw [setMat_getD_self m i a f.one
        (by simp only [List.length_cons] at hlen; omega)]
      simp
    · rw [setMat_getD_ne m s a f.one i (fun h => his h.symm)]
      by_cases hin : s + 1 ≤ i ∧ i < s + 1 + l.length
      · rw [if_pos hin, if_pos (by simp only [List.length_cons]; omega)]
        have heq : (a :: l).getD (i - s) 0 = l.getD (i - (s + 1)) 0 := by
          have h1 : i - s = (i - (s + 1)) + 1 := by omega
          rw [h1, List.getD_cons_succ]
        rw [heq]
      · rw [if_neg hin, if_neg (by simp only [List.length_cons]; omega)]

/-- Row `i` of `generate_permutation_matrix` is the all-zero row with a one
written at column `perm[i]`. -/
theorem gen_matrix_row (cfg : ToyConfig) (f : FiniteField) (perm : List Nat)
    (i : Nat) (hlen : perm.length = cfg.num_users) (hi : i < cfg.num_users) :
    (OfflinePhase.generate_permutation_matrix cfg f perm).getD i []
      = (List.replicate cfg.num_users f.zero).set (perm.getD i 0) f.one := by
  unfold OfflinePhase.generate_permutation_matrix
  have henum : perm.enum = List.enumFrom 0 perm := rfl
  rw [henum]
  rw [fill_getD f perm 0
    (List.replicate cfg.num_users (List.replicate cfg.num_users f.zero)) i
    (by simp [hlen])]
  rw [if_pos ⟨Nat.zero_le i, by omega⟩]
  simp only [Nat.sub_zero]
  have hrep : (List.replicate cfg.num_users
      (List.replicate cfg.num_users f.zero)).getD i [] =
      List.replicate cfg.num_users f.zero := by
    rw [List.getD_eq_getElem _ _ (by simpa using hi)]
    exact List.getElem_replicate _ _
  rw [hrep]

/-- A one-hot write into a replicated row, as a `map` over column indices. -/
theorem set_replicate_eq_map (n k : Nat) (z o : FieldElement) :
    (List.replicate n z).set k o
      = (List.range n).map (fun t => if t = k then o else z) := by
  apply List.ext_getElem
  · simp
  · intro t h1 h2
    rw [List.getElem_set, List.getElem_map, List.getElem_range]
    by_cases h : k = t
    · rw [if_pos h, if_pos h.symm]
    · rw [if_neg h, if_neg (fun hh => h hh.symm), List.getElem_replicate]

/-- Reading a one-hot row at a column. -/
theorem getD_set_replicate (n k j : Nat) (hj : j < n) (z o : FieldElement) :
    ((List.replicate n z).set k o).getD j z = if k = j then o else z := by
  rw [List.getD_eq_getElem _ _ (by simpa using hj)]
  rw [List.getElem_set]
  by_cases h : k = j
  · rw [if_pos h, if_pos h]
  · rw [if_neg h, if_neg h, List.getElem_replicate]

/-- A `countP` of a list with a unique satisfying member is 1. -/
theorem countP_eq_one_of_unique {α : Type} (q : α → Bool) :
    ∀ (l : List α) (a : α), a ∈ l → q a = true → l.Nodup →
      (∀ b ∈ l, q b = true → b = a) → l.countP q = 1 := by
  intro l
  induction l with
  | nil => intro a ha; simp at ha
  | cons x l ih =>
    intro a ha hqa hnd huniq
    rw [List.countP_cons]
    rcases List.mem_cons.mp ha with rfl | ha'
    · rw [if_pos hqa]
      have hzero : l.countP q = 0 := List.countP_eq_zero.mpr (by
        intro b hb hqb
        have hba := huniq b (List.mem_cons.mpr (Or.inr hb)) hqb
        exact absurd (hba ▸ hb) (List.nodup_cons.mp hnd).1)
      rw [hzero]
    · by_cases hqx : q x = true
      · have hxa : x = a := huniq x (List.mem_cons_self x l) hqx
        have hxl : x ∈ l := by rw [hxa]; exact ha'
        exact absurd hxl (List.nodup_cons.mp hnd).1
      · rw [if_neg hqx, ih a ha' hqa (List.nodup_cons.mp hnd).2
          (fun b hb hqb => huniq b (List.mem_cons.mpr (Or.inr hb)) hqb)]

/-- Counting ones and zeros in a length-`n` list holding `o` exactly at the
unique index satisfying `P` and `z` elsewhere. -/
theorem counts_of_unique_ite (n : Nat) (P : Nat → Prop) [DecidablePred P]
    (t0 : Nat) (ht0 : t0 < n) (hP : P t0) (huniq : ∀ b, b < n → P b → b = t0)
    (z o : FieldElement) (hzo : o ≠ z) :
    ((List.range n).map (fun t => if P t then o else z)).count o = 1 ∧
    ((List.range n).map (fun t => if P t then o else z)).count z = n - 1 := by
  have h1 : (List.range n).countP (fun t => decide (P t)) = 1 := by
    apply countP_eq_one_of_unique (fun t => decide (P t)) (List.range n) t0
      (List.mem_range.mpr ht0) (by simpa using hP) (List.nodup_range n)
    intro b hb hqb
    exact huniq b (List.mem_range.mp hb) (by simpa using hqb)
  have hcount1 : ((List.range n).map (fun t => if P t then o else z)).count o
      = (List.range n).countP (fun t => decide (P t)) := by
    rw [List.count_eq_countP, List.countP_map]
    apply List.countP_congr
    intro t _
    by_cases hPt : P t
    · simp [hPt]
    · simp [hPt, Ne.symm hzo]
  constructor
  · rw [hcount1, h1]
  · have hcount2 : ((List.range n).map (fun t => if P t then o else z)).count z
        = (List.range n).countP (fun t => decide (¬ P t)) := by
      rw [List.count_eq_countP, List.countP_map]
      apply List.countP_congr
      intro t _
      by_cases hPt : P t
      · simp [hPt, hzo]
      · simp [hPt]
    have hlen2 : n = (List.range n).countP (fun t => decide (P t)) +
        (List.range n).countP (fun t => decide (¬ P t)) := by
      conv_lhs => rw [← List.length_range n]
      rw [List.length_eq_countP_add_countP (fun t => decide (P t))]
      congr 1
      apply List.countP_congr
      intro t _
      simp
    rw [hcount2]
    omega

/-- Bounded lists without duplicates of full length enumerate `[0, n)`. -/
theorem mem_of_bounded_nodup (perm : List Nat) (n : Nat) (hlen : perm.length = n)
    (hnd : perm.Nodup) (hmem : ∀ x ∈ perm, x < n) (j : Nat) (hj : j < n) :
    j ∈ perm := by
  have hsub : perm.toFinset ⊆ Finset.range n := by
    intro x hx
    simp only [List.mem_toFinset] at hx
    exact Finset.mem_range.mpr (hmem x hx)
  have hcard : (Finset.range n).card ≤ perm.toFinset.card := by
    rw [List.toFinset_card_of_nodup hnd, hlen, Finset.card_range]
  have heq := Finset.eq_of_subset_of_card_le hsub hcard
  have hjmem : j ∈ perm.toFinset := by
    rw [heq]
    exact Finset.mem_range.mpr hj
  simpa using hjmem

/-- C7. For `n = num_users` and any permutation `perm` of `[0, n)` (what
the Fisher-Yates `shuffle_permutation` of `(0..n).collect()` produces), the
generated permutation matrix is `n × n`, and each row `i` and each column `j`
contains exactly one `1` and `n − 1` zeros. -/
theorem C7_permutation_matrix_shape (cfg : ToyConfig) (f : FiniteField)
    (perm : List Nat) (i j : Nat)
    (hlen : perm.length = cfg.num_users) (hnd : perm.Nodup)
    (hmem : ∀ x ∈ perm, x < cfg.num_users)
    (hi : i < cfg.num_users) (hj : j < cfg.num_users) :
    (OfflinePhase.generate_permutation_matrix cfg f perm).length = cfg.num_users ∧
    ((OfflinePhase.generate_permutation_matrix cfg f perm).getD i []).length
      = cfg.num_users ∧
    ((OfflinePhase.generate_permutation_matrix cfg f perm).getD i []).count f.one
      = 1 ∧
    ((OfflinePhase.generate_permutation_matrix cfg f perm).getD i []).count f.zero
      = cfg.num_users - 1 ∧
    ((List.range cfg.num_users).map (fun r =>
        ((OfflinePhase.generate_permutation_matrix cfg f perm).getD r []).getD
          j f.zero)).count f.one = 1 ∧
    ((List.range cfg.num_users).map (fun r =>
        ((OfflinePhase.generate_permutation_matrix cfg f perm).getD r []).getD
          j f.zero)).count f.zero = cfg.num_users - 1 := by
  have hone_ne : f.one ≠ f.zero := by
    simp [FiniteField.one, FiniteField.zero, FieldElement.one, FieldElement.zero]
  have hk : ∀ r, r < cfg.num_users → perm.getD r 0 < cfg.num_users := by
    intro r hr
    exact hmem _ (getD_mem_of_lt perm 0 (by omega))
  have hrow : ∀ r, r < cfg.num_users →
      (OfflinePhase.generate_permutation_matrix cfg f perm).getD r []
        = (List.replicate cfg.num_users f.zero).set (perm.getD r 0) f.one :=
    fun r hr => gen_matrix_row cfg f perm r hlen hr
  -- the unique row index hitting column j
  obtain ⟨idx, hidxlt, hidxeq⟩ :=
    List.getElem_of_mem (mem_of_bounded_nodup perm cfg.num_users hlen hnd hmem j hj)
  have hidxn : idx < cfg.num_users := by omega
  have hidxgetD : perm.getD idx 0 = j := by
    rw [List.getD_eq_getElem perm 0 hidxlt]
    exact hidxeq
  have hcoluniq : ∀ b, b < cfg.num_users → perm.getD b 0 = j → b = idx := by
    intro b hb hbj
    have hblt : b < perm.length := by omega
    rw [List.getD_eq_getElem perm 0 hblt] at hbj
    exact (List.Nodup.getElem_inj_iff hnd).mp (by rw [hbj, hidxeq])
  have hrowcounts := counts_of_unique_ite cfg.num_users
    (fun t => t = perm.getD i 0) (perm.getD i 0) (hk i hi) rfl
    (fun b _ hb => hb) f.zero f.one hone_ne
  have hcolentry : ∀ r, r < cfg.num_users →
      ((OfflinePhase.generate_permutation_matrix cfg f perm).getD r []).getD
          j f.zero
        = if perm.getD r 0 = j then f.one else f.zero := by
    intro r hr
    rw [hrow r hr]
    exact getD_set_replicate cfg.num_users (perm.getD r 0) j hj f.zero f.one
  have hcol : ((List.range cfg.num_users).map (fun r =>
      ((OfflinePhase.generate_permutation_matrix cfg f perm).getD r []).getD
        j f.zero))
      = (List.range cfg.num_users).map
          (fun r => if perm.getD r 0 = j then f.one else f.zero) := by
    apply List.map_congr_left
    intro r hr
    exact hcolentry r (List.mem_range.mp hr)
  have hcolcounts := counts_of_unique_ite cfg.num_users
    (fun r => perm.getD r 0 = j) idx hidxn hidxgetD hcoluniq
    f.zero f.one hone_ne
  refine ⟨?_, ?_, ?_, ?_, ?_, ?_⟩
  · unfold OfflinePhase.generate_permutation_matrix
    have henum : perm.enum = List.enumFrom 0 perm := rfl
    rw [henum, fill_length]
    simp
  · rw [hrow i hi, List.length_set, List.length_replicate]
  · rw [hrow i hi, set_replicate_eq_map]
    exact hrowcounts.1
  · rw [hrow i hi, set_replicate_eq_map]
    exact hrowcounts.2
  · rw [hcol]
    exact hcolcounts.1
  · rw [hcol]
    exact hcolcounts.2

/-- Witness for C7 at `n = 3`, `p = 7`, `perm = [1, 2, 0]`, row 0 and
column 1. -/
theorem C7_permutation_matrix_shape_witness :
    (OfflinePhase.generate_permutation_matrix ⟨7, 3⟩ ⟨7, 5⟩ [1, 2, 0]).length = 3 ∧
    ((OfflinePhase.generate_permutation_matrix ⟨7, 3⟩ ⟨7, 5⟩ [1, 2, 0]).getD 0 []).length
      = 3 ∧
    ((OfflinePhase.generate_permutation_matrix ⟨7, 3⟩ ⟨7, 5⟩ [1, 2, 0]).getD 0 []).count
      (FiniteField.one ⟨7, 5⟩) = 1 ∧
    ((OfflinePhase.generate_permutation_matrix ⟨7, 3⟩ ⟨7, 5⟩ [1, 2, 0]).getD 0 []).count
      (FiniteField.zero ⟨7, 5⟩) = 3 - 1 ∧
    ((List.range 3).map (fun r =>
        ((OfflinePhase.generate_permutation_matrix ⟨7, 3⟩ ⟨7, 5⟩ [1, 2, 0]).getD r []).getD
          1 (FiniteField.zero ⟨7, 5⟩))).count (FiniteField.one ⟨7, 5⟩) = 1 ∧
    ((List.range 3).map (fun r =>
        ((OfflinePhase.generate_permutation_matrix ⟨7, 3⟩ ⟨7, 5⟩ [1, 2, 0]).getD r []).getD
          1 (FiniteField.zero ⟨7, 5⟩))).count (FiniteField.zero ⟨7, 5⟩) = 3 - 1 :=
  C7_permutation_matrix_shape ⟨7, 3⟩ ⟨7, 5⟩ [1, 2, 0] 0 1 rfl
    (by decide) (by decide) (by decide) (by decide)

end Toy
